import Mathlib

/-!
Shallow embedding of the schema-builder core from
`src/client/components/SchemaBuilder.tsx`:

* the `SchemaField` tree data model (lines 14-22 of the source),
* the index-based tree mutations used by the editor
  (`updateField` / `removeField` / `addField`, lines 198-221, and the
  per-row callbacks of `FieldRow`, lines 39-101),
* the schema projector `generateSchema` / `convertFieldsToSchema`
  (lines 223-253).

JavaScript objects are modelled as association lists with JS insertion
semantics (`obj[k] = v` keeps the key at its first-assignment position and
overwrites the value); JS arrays are modelled as Lean lists of their
present elements in index order.
-/

namespace SchemaBuilder

/-- The `FieldType` union from the source: `"string" | "number" | "nested"`. -/
inductive FieldType where
  | string
  | number
  | nested
deriving DecidableEq, Repr

/-- The `SchemaField` interface from the source: `id`, `name`, `type`,
`enabled`, and an optional `nested` child array (`nested?: SchemaField[]`,
absent = `none`). -/
inductive SchemaField where
  | mk (id : String) (name : String) (type : FieldType) (enabled : Bool)
      (nested : Option (List SchemaField)) : SchemaField

/-- Projection of the `id` property. -/
def SchemaField.id : SchemaField → String
  | .mk i _ _ _ _ => i

/-- Projection of the `name` property. -/
def SchemaField.name : SchemaField → String
  | .mk _ n _ _ _ => n

/-- Projection of the `type` property. -/
def SchemaField.type : SchemaField → FieldType
  | .mk _ _ t _ _ => t

/-- Projection of the `enabled` property. -/
def SchemaField.enabled : SchemaField → Bool
  | .mk _ _ _ e _ => e

/-- Projection of the optional `nested` property. -/
def SchemaField.nested : SchemaField → Option (List SchemaField)
  | .mk _ _ _ _ c => c

/-- The child array as read by the source via `field.nested || []`. -/
def SchemaField.nestedList (f : SchemaField) : List SchemaField :=
  f.nested.getD []

/-- JSON values produced by the projector: every projected value in the
source is either a string literal or a plain object. -/
inductive JsonValue where
  | str (s : String) : JsonValue
  | obj (entries : List (String × JsonValue)) : JsonValue

/-- JS object assignment `m[k] = v` on an association list: if `k` is
already a key, its value is overwritten in place (the key keeps its
original position); otherwise the pair is appended. -/
def objInsert : List (String × JsonValue) → String → JsonValue → List (String × JsonValue)
  | [], k, v => [(k, v)]
  | (k', v') :: rest, k, v =>
    if k' = k then (k', v) :: rest else (k', v') :: objInsert rest k v

/-- JS object read `m[k]`: the value stored under key `k`, if any. -/
def lookupKey : List (String × JsonValue) → String → Option JsonValue
  | [], _ => none
  | (k', v') :: rest, k => if k' = k then some v' else lookupKey rest k

mutual

/-- The body of the `fields.forEach((field) => ...)` loop of
`convertFieldsToSchema` (source lines 227-247): process one field against
the accumulated `result` object. Disabled fields are skipped; a `string`
field stores `""` when its name is empty and `"STRING"` otherwise; a
`number` field stores `"number"`; a `nested` field stores the recursive
projection of its children when `field.nested && field.nested.length > 0`
and `{}` otherwise. -/
def processField (f : SchemaField) (result : List (String × JsonValue)) :
    List (String × JsonValue) :=
  match f with
  | .mk _ name ty enabled nested =>
    if enabled then
      match ty with
      | .string => objInsert result name (.str (if name = "" then "" else "STRING"))
      | .number => objInsert result name (.str "number")
      | .nested =>
        match nested with
        | some cs =>
          if 0 < cs.length then objInsert result name (.obj (convertAux cs []))
          else objInsert result name (.obj [])
        | none => objInsert result name (.obj [])
    else result

/-- The `fields.forEach` loop of `convertFieldsToSchema` folded over the
field list, threading the `result` object. -/
def convertAux (fields : List SchemaField) (result : List (String × JsonValue)) :
    List (String × JsonValue) :=
  match fields with
  | [] => result
  | f :: rest => convertAux rest (processField f result)

end

/-- `convertFieldsToSchema` from the source (lines 224-250): starts from
the empty `result` object. -/
def convertFieldsToSchema (fields : List SchemaField) : List (String × JsonValue) :=
  convertAux fields []

/-- `generateSchema` (source lines 223-253): the full projection of the
current field tree, as a JSON object. -/
def generateSchema (fields : List SchemaField) : JsonValue :=
  .obj (convertFieldsToSchema fields)

/-- The field built by `addField` / `addNestedField` (source lines 63-69
and 198-206): fresh id, empty name, type `string`, enabled, no `nested`
property. The generated id (`Math.random().toString(36).substr(2, 9)`) is
passed in as an explicit oracle value. -/
def newField (id : String) : SchemaField :=
  .mk id "" .string true none

/-- `addField` (source lines 198-206): appends a newly created field to the
root sequence, with `id` the token drawn by `generateId`. -/
def addField (id : String) (fields : List SchemaField) : List SchemaField :=
  fields ++ [newField id]

/-- Root-level `updateField` (source lines 208-217): `newFields[index] =
updatedField`. An in-range index replaces the element; JS assignment at an
index past the end stores the element there, and every read of the array in
this file (`map` / `filter` / `forEach`) skips holes, so the observable
element sequence is the old elements followed by the new one (exact
JS behaviour when `index` equals the length). -/
def updateField (index : Nat) (f : SchemaField) (fields : List SchemaField) :
    List SchemaField :=
  if index < fields.length then fields.set index f else fields ++ [f]

/-- The `prev.filter((_, i) => i !== index)` loop of `removeField`
(source lines 219-221), with `i` the running element index. -/
def removeFieldAux (index : Nat) : Nat → List SchemaField → List SchemaField
  | _, [] => []
  | i, f :: rest =>
    if i = index then removeFieldAux index (i + 1) rest
    else f :: removeFieldAux index (i + 1) rest

/-- Root-level `removeField` (source lines 219-221): keep every element
whose index differs from `index`. -/
def removeField (index : Nat) (fields : List SchemaField) : List SchemaField :=
  removeFieldAux index 0 fields

/-- Replacement of the `name` property, as done by the name input's
`onChange` (source line 85): `{ ...field, name: s }`. -/
def SchemaField.withName : SchemaField → String → SchemaField
  | .mk i _ t e c, s => .mk i s t e c

/-- Replacement of the `enabled` property, as done by the switch's
`onCheckedChange` (source line 116): `{ ...field, enabled: b }`. -/
def SchemaField.withEnabled : SchemaField → Bool → SchemaField
  | .mk i n t _ c, b => .mk i n t b c

/-- Replacement of the `nested` property with a present array, as done by
`updateField({ nested: newNested })` in the nested-row callbacks (source
lines 50, 58, 71). -/
def SchemaField.withNested : SchemaField → List SchemaField → SchemaField
  | .mk i n t e _, cs => .mk i n t e (some cs)

/-- The type select's `onValueChange` (source lines 93-101): the update is
`{ type: value }`, plus `nested: []` when switching to `nested` with no
existing `nested` array (`!field.nested`; an empty array is truthy in JS),
and `nested: undefined` when switching away from `nested`. -/
def setFieldType (f : SchemaField) (value : FieldType) : SchemaField :=
  if value = .nested then
    match f.nested with
    | none => .mk f.id f.name value f.enabled (some [])
    | some cs => .mk f.id f.name value f.enabled (some cs)
  else .mk f.id f.name value f.enabled none

/-- `addNestedField` (source lines 63-72): appends a newly created field to
`field.nested || []`, with `id` the token drawn by `generateId`. -/
def addNestedField (id : String) (f : SchemaField) : SchemaField :=
  f.withNested (f.nestedList ++ [newField id])

/-- One edit of a single field, as producible by the `FieldRow` component
(source lines 33-160): editing the name input, toggling the switch,
changing the type select, or — when the row's type is `nested`, which is
when the child rows and the nested add button render (lines 131-157) —
editing a child row in place, removing a child, or appending a fresh
child. The child index always comes from mapping over `field.nested`, so
it is in range. -/
inductive FieldStep : SchemaField → SchemaField → Prop
  | setName (f : SchemaField) (s : String) : FieldStep f (f.withName s)
  | setEnabled (f : SchemaField) (b : Bool) : FieldStep f (f.withEnabled b)
  | setType (f : SchemaField) (v : FieldType) : FieldStep f (setFieldType f v)
  | updateNested (f : SchemaField) (i : Nat) (g : SchemaField)
      (ht : f.type = .nested) (hi : i < f.nestedList.length)
      (hg : FieldStep (f.nestedList.getD i (newField "")) g) :
      FieldStep f (f.withNested (f.nestedList.set i g))
  | removeNested (f : SchemaField) (i : Nat) (ht : f.type = .nested) :
      FieldStep f (f.withNested (removeField i f.nestedList))
  | addNested (f : SchemaField) (id : String) (ht : f.type = .nested) :
      FieldStep f (addNestedField id f)

/-- One edit of the whole tree, as producible by the `SchemaBuilder`
component (source lines 162-305): appending a fresh root field, replacing
a root field at an index obtained from mapping over `fields` with an
edited version of that field, or removing a root field. -/
inductive TreeStep : List SchemaField → List SchemaField → Prop
  | add (fs : List SchemaField) (id : String) : TreeStep fs (addField id fs)
  | update (fs : List SchemaField) (i : Nat) (f : SchemaField)
      (hi : i < fs.length) (hf : FieldStep (fs.getD i (newField "")) f) :
      TreeStep fs (updateField i f fs)
  | remove (fs : List SchemaField) (i : Nat) : TreeStep fs (removeField i fs)

mutual

/-- The children-presence invariant on one field: `nested` is present if
and only if `type = nested`, recursively at every depth. -/
def fieldInv : SchemaField → Bool
  | .mk _ _ ty _ none => decide (ty ≠ .nested)
  | .mk _ _ ty _ (some cs) => decide (ty = .nested) && fieldsInv cs

/-- The children-presence invariant on a field sequence. -/
def fieldsInv : List SchemaField → Bool
  | [] => true
  | f :: rest => fieldInv f && fieldsInv rest

end

mutual

/-- All `id` values occurring in one field's subtree, in preorder. -/
def fieldIds : SchemaField → List String
  | .mk i _ _ _ none => [i]
  | .mk i _ _ _ (some cs) => i :: fieldsIds cs

/-- All `id` values occurring in a field sequence, in preorder. -/
def fieldsIds : List SchemaField → List String
  | [] => []
  | f :: rest => fieldIds f ++ fieldsIds rest

end

/-- The value stored for one enabled field by the `switch (field.type)` of
`convertFieldsToSchema` (source lines 232-246), factored out of
`processField`. -/
def fieldValue : SchemaField → JsonValue
  | .mk _ name ty _ nested =>
    match ty with
    | .string => .str (if name = "" then "" else "STRING")
    | .number => .str "number"
    | .nested =>
      match nested with
      | some cs => if 0 < cs.length then .obj (convertAux cs []) else .obj []
      | none => .obj []

/-- The initial editor state (source lines 163-196). -/
def initialFields : List SchemaField :=
  [ .mk "1" "name" .string true none,
    .mk "2" "class" .number true none,
    .mk "3" "address" .nested true (some
      [ .mk "4" "line" .number true none,
        .mk "5" "" .string true none ]) ]

/-- The two-field tree of the spec's Example 1. -/
def example1 : List SchemaField :=
  [ .mk "1" "name" .string true none,
    .mk "2" "class" .number true none ]

/-- Example 1's tree with the `"class"` field disabled (the spec's
Example 3). -/
def example1Disabled : List SchemaField :=
  [ .mk "1" "name" .string true none,
    .mk "2" "class" .number false none ]

/-- The one-field nested tree of the spec's Example 2. -/
def example2 : List SchemaField :=
  [ .mk "3" "address" .nested true (some
      [ .mk "4" "line" .number true none,
        .mk "5" "" .string true none ]) ]

/-! ### Helper lemmas about object insertion and lookup -/

theorem lookupKey_objInsert_same (m : List (String × JsonValue)) (k : String)
    (v : JsonValue) : lookupKey (objInsert m k v) k = some v := by
  induction m with
  | nil => simp [objInsert, lookupKey]
  | cons p rest ih =>
    obtain ⟨k', v'⟩ := p
    by_cases h : k' = k <;> simp [objInsert, lookupKey, h, ih]

theorem lookupKey_objInsert_ne (m : List (String × JsonValue)) {k k' : String}
    (v : JsonValue) (h : k' ≠ k) :
    lookupKey (objInsert m k' v) k = lookupKey m k := by
  induction m with
  | nil => simp [objInsert, lookupKey, h]
  | cons p rest ih =>
    obtain ⟨k'', v''⟩ := p
    by_cases h2 : k'' = k' <;> simp [objInsert, lookupKey, h2, ih]
    subst h2
    simp [h]

theorem keys_objInsert (m : List (String × JsonValue)) (k : String)
    (v : JsonValue) :
    (objInsert m k v).map Prod.fst =
      if k ∈ m.map Prod.fst then m.map Prod.fst else m.map Prod.fst ++ [k] := by
  induction m with
  | nil => simp [objInsert]
  | cons p rest ih =>
    obtain ⟨k', v'⟩ := p
    by_cases h : k' = k
    · subst h
      simp [objInsert]
    · simp only [objInsert, if_neg h, List.map_cons, ih]
      have hne : ¬k = k' := fun hh => h hh.symm
      by_cases hm : k ∈ rest.map Prod.fst <;> simp [hm, hne]

theorem keysNodup_objInsert (m : List (String × JsonValue)) (k : String)
    (v : JsonValue) (hm : (m.map Prod.fst).Nodup) :
    ((objInsert m k v).map Prod.fst).Nodup := by
  rw [keys_objInsert]
  by_cases h : k ∈ m.map Prod.fst
  · simpa [h] using hm
  · simp only [if_neg h]
    exact List.Nodup.append hm (List.nodup_singleton k) (by simpa using h)

theorem mem_keys_objInsert (m : List (String × JsonValue)) (k : String)
    (v : JsonValue) : k ∈ (objInsert m k v).map Prod.fst := by
  rw [keys_objInsert]
  by_cases h : k ∈ m.map Prod.fst <;> simp [h]

theorem mem_keys_of_lookupKey {m : List (String × JsonValue)} {k : String}
    {v : JsonValue} (h : lookupKey m k = some v) : k ∈ m.map Prod.fst := by
  induction m with
  | nil => simp [lookupKey] at h
  | cons p rest ih =>
    obtain ⟨k', v'⟩ := p
    by_cases h2 : k' = k
    · simp [h2]
    · simp only [lookupKey, if_neg h2] at h
      simpa using Or.inr (ih h)

/-! ### Helper lemmas about the projector -/

theorem processField_eq (f : SchemaField) (result : List (String × JsonValue)) :
    processField f result =
      if f.enabled then objInsert result f.name (fieldValue f) else result := by
  obtain ⟨i, n, ty, e, nested⟩ := f
  cases e <;> cases ty <;> cases nested
  all_goals simp [processField, fieldValue, SchemaField.enabled, SchemaField.name]
  all_goals split <;> rfl

theorem convertAux_append (a b : List SchemaField)
    (r : List (String × JsonValue)) :
    convertAux (a ++ b) r = convertAux b (convertAux a r) := by
  induction a generalizing r with
  | nil => simp [convertAux]
  | cons f rest ih => simp [convertAux, ih]

theorem lookupKey_convertAux_of_no_write (us : List SchemaField)
    (r : List (String × JsonValue)) (k : String)
    (h : ∀ g ∈ us, ¬(g.enabled = true ∧ g.name = k)) :
    lookupKey (convertAux us r) k = lookupKey r k := by
  induction us generalizing r with
  | nil => rfl
  | cons g rest ih =>
    have hg := h g (by simp)
    have hrest : ∀ g' ∈ rest, ¬(g'.enabled = true ∧ g'.name = k) := by
      intro g' hg'
      exact h g' (by simp [hg'])
    rw [convertAux, ih _ hrest, processField_eq]
    cases he : g.enabled
    · simp
    · have hne : g.name ≠ k := by
        intro hnk
        exact hg ⟨he, hnk⟩
      simp [lookupKey_objInsert_ne _ _ hne]

theorem keysNodup_convertAux (fs : List SchemaField)
    (r : List (String × JsonValue)) (hr : (r.map Prod.fst).Nodup) :
    ((convertAux fs r).map Prod.fst).Nodup := by
  induction fs generalizing r with
  | nil => exact hr
  | cons f rest ih =>
    rw [convertAux]
    refine ih _ ?_
    rw [processField_eq]
    cases f.enabled
    · simpa using hr
    · simpa using keysNodup_objInsert _ _ _ hr

theorem lookupKey_convert_last (ts us : List SchemaField) (f : SchemaField)
    (he : f.enabled = true)
    (h : ∀ g ∈ us, ¬(g.enabled = true ∧ g.name = f.name)) :
    lookupKey (convertFieldsToSchema (ts ++ f :: us)) f.name =
      some (fieldValue f) := by
  have step : convertFieldsToSchema (ts ++ f :: us) =
      convertAux us (processField f (convertAux ts [])) := by
    rw [convertFieldsToSchema, convertAux_append]
    rfl
  rw [step, lookupKey_convertAux_of_no_write us _ _ h, processField_eq, he]
  simp [lookupKey_objInsert_same]

theorem fieldValue_string (f : SchemaField) (ht : f.type = .string) :
    fieldValue f = .str (if f.name = "" then "" else "STRING") := by
  obtain ⟨i, n, ty, e, nested⟩ := f
  cases ty <;> simp_all [fieldValue, SchemaField.type, SchemaField.name]

theorem fieldValue_number (f : SchemaField) (ht : f.type = .number) :
    fieldValue f = .str "number" := by
  obtain ⟨i, n, ty, e, nested⟩ := f
  cases ty <;> simp_all [fieldValue, SchemaField.type]

/-! ### Helper lemmas about removal and ids -/

theorem removeFieldAux_of_le (fs : List SchemaField) (index : Nat) :
    ∀ n, fs.length + n ≤ index → removeFieldAux index n fs = fs := by
  induction fs with
  | nil => intro n _; rfl
  | cons f rest ih =>
    intro n hn
    have hne : n ≠ index := by
      simp only [List.length_cons] at hn
      omega
    rw [removeFieldAux, if_neg hne, ih (n + 1) (by simp at hn; omega)]

theorem fieldsIds_append (a b : List SchemaField) :
    fieldsIds (a ++ b) = fieldsIds a ++ fieldsIds b := by
  induction a with
  | nil => rfl
  | cons f rest ih => simp [fieldsIds, ih]

/-! ### Helper lemmas about the children-presence invariant -/

theorem fieldsInv_mem {cs : List SchemaField} {g : SchemaField}
    (h : fieldsInv cs = true) (hg : g ∈ cs) : fieldInv g = true := by
  induction cs with
  | nil => cases hg
  | cons c rest ih =>
    rw [fieldsInv, Bool.and_eq_true] at h
    rcases List.mem_cons.1 hg with rfl | hmem
    · exact h.1
    · exact ih h.2 hmem

theorem fieldsInv_set {cs : List SchemaField} {g : SchemaField}
    (h : fieldsInv cs = true) (hg : fieldInv g = true) :
    ∀ i, fieldsInv (cs.set i g) = true := by
  induction cs with
  | nil => intro i; rfl
  | cons c rest ih =>
    intro i
    rw [fieldsInv, Bool.and_eq_true] at h
    cases i with
    | zero => simp [List.set, fieldsInv, hg, h.2]
    | succ j => simp [List.set, fieldsInv, h.1, ih h.2 j]

theorem fieldsInv_append {a b : List SchemaField}
    (ha : fieldsInv a = true) (hb : fieldsInv b = true) :
    fieldsInv (a ++ b) = true := by
  induction a with
  | nil => exact hb
  | cons f rest ih =>
    rw [fieldsInv, Bool.and_eq_true] at ha
    simp [fieldsInv, ha.1, ih ha.2]

theorem fieldsInv_removeFieldAux {cs : List SchemaField}
    (h : fieldsInv cs = true) (index : Nat) :
    ∀ n, fieldsInv (removeFieldAux index n cs) = true := by
  induction cs with
  | nil => intro n; rfl
  | cons c rest ih =>
    intro n
    rw [fieldsInv, Bool.and_eq_true] at h
    rw [removeFieldAux]
    by_cases hn : n = index
    · simp [hn, ih h.2]
    · simp [hn, fieldsInv, h.1, ih h.2]

theorem fieldInv_getD {cs : List SchemaField} {i : Nat}
    (h : fieldsInv cs = true) (hi : i < cs.length) (d : SchemaField) :
    fieldInv (cs.getD i d) = true := by
  rw [List.getD_eq_getElem cs d hi]
  exact fieldsInv_mem h (List.getElem_mem hi)

theorem fieldInv_setFieldType {f : SchemaField} (h : fieldInv f = true)
    (v : FieldType) : fieldInv (setFieldType f v) = true := by
  obtain ⟨i, n, ty, e, nested⟩ := f
  by_cases hv : v = .nested
  · subst hv
    cases nested with
    | none => rfl
    | some cs =>
      rw [fieldInv, Bool.and_eq_true] at h
      simp [setFieldType, SchemaField.nested, fieldInv, h.2]
  · cases nested <;>
      simp [setFieldType, hv, SchemaField.id, SchemaField.name,
        SchemaField.enabled, fieldInv]

theorem fieldStep_inv {f f' : SchemaField} (h : FieldStep f f')
    (hf : fieldInv f = true) : fieldInv f' = true := by
  induction h with
  | setName f s =>
    obtain ⟨i, n, ty, e, nested⟩ := f
    cases nested <;> simpa [SchemaField.withName, fieldInv] using hf
  | setEnabled f b =>
    obtain ⟨i, n, ty, e, nested⟩ := f
    cases nested <;> simpa [SchemaField.withEnabled, fieldInv] using hf
  | setType f v => exact fieldInv_setFieldType hf v
  | updateNested f i g ht hi hg ih =>
    obtain ⟨fi, fn, ty, e, nested⟩ := f
    rw [SchemaField.type] at ht
    subst ht
    cases nested with
    | none => rw [fieldInv] at hf; simp at hf
    | some cs =>
      rw [fieldInv, Bool.and_eq_true] at hf
      have hnl : SchemaField.nestedList (.mk fi fn .nested e (some cs)) = cs := rfl
      rw [hnl] at ih hi
      have hg' : fieldInv g = true := ih (fieldInv_getD hf.2 hi _)
      simp [SchemaField.withNested, hnl, fieldInv]
      exact fieldsInv_set hf.2 hg' i
  | removeNested f i ht =>
    obtain ⟨fi, fn, ty, e, nested⟩ := f
    rw [SchemaField.type] at ht
    subst ht
    cases nested with
    | none => rw [fieldInv] at hf; simp at hf
    | some cs =>
      rw [fieldInv, Bool.and_eq_true] at hf
      have : SchemaField.nestedList (.mk fi fn .nested e (some cs)) = cs := rfl
      simp [SchemaField.withNested, this, fieldInv, removeField]
      exact fieldsInv_removeFieldAux hf.2 i 0
  | addNested f id ht =>
    obtain ⟨fi, fn, ty, e, nested⟩ := f
    rw [SchemaField.type] at ht
    subst ht
    cases nested with
    | none => rw [fieldInv] at hf; simp at hf
    | some cs =>
      rw [fieldInv, Bool.and_eq_true] at hf
      have hnl : SchemaField.nestedList (.mk fi fn .nested e (some cs)) = cs := rfl
      simp [addNestedField, SchemaField.withNested, hnl, fieldInv]
      exact fieldsInv_append hf.2 (by rfl)

theorem treeStep_inv {t t' : List SchemaField} (h : TreeStep t t')
    (ht : fieldsInv t = true) : fieldsInv t' = true := by
  cases h with
  | add id => exact fieldsInv_append ht (by rfl)
  | update i f hi hf =>
    have hfi : fieldInv f = true := fieldStep_inv hf (fieldInv_getD ht hi _)
    rw [updateField, if_pos hi]
    exact fieldsInv_set ht hfi i
  | remove i => exact fieldsInv_removeFieldAux ht i 0

theorem reachable_inv {t t' : List SchemaField}
    (h : Relation.ReflTransGen TreeStep t t') (ht : fieldsInv t = true) :
    fieldsInv t' = true := by
  induction h with
  | refl => exact ht
  | tail _ hstep ih => exact treeStep_inv hstep ih

theorem nodup_cons_append_singleton {i id : String} {l : List String}
    (h : (i :: l).Nodup) (hid : id ∉ i :: l) : (i :: (l ++ [id])).Nodup := by
  rw [List.nodup_cons] at h ⊢
  rw [List.mem_cons, not_or] at hid
  refine ⟨?_, ?_⟩
  · intro hmem
    rcases List.mem_append.1 hmem with hl | hone
    · exact h.1 hl
    · simp at hone
      exact hid.1 hone.symm
  · exact List.Nodup.append h.2 (List.nodup_singleton id)
      (fun a ha hb => by simp at hb; subst hb; exact hid.2 ha)

/-! ### Claim theorems -/

/-- C1 (counterexample): the root-level `updateField` given the index `1`,
which does not resolve to an existing field of the one-element tree
`[newField "a"]`, does not leave the tree unchanged: it silently stores the
supplied field at that index (the spec instead demands rejecting the
operation with an `InvalidPath` error and an unchanged tree). -/
theorem c1_counterexample :
    updateField 1 (newField "z") [newField "a"] = [newField "a", newField "z"] ∧
    updateField 1 (newField "z") [newField "a"] ≠ [newField "a"] := by
  refine ⟨rfl, fun h => absurd (congrArg List.length h) (by decide)⟩

/-- C1 (amended): no tree operation raises an `InvalidPath` error. On an
index that does not resolve to an existing field, `removeField` silently
returns the tree unchanged (its filter keeps every element), while
`updateField` silently applies the write: at index = length it appends the
supplied field. -/
theorem c1_no_invalid_path_error :
    (∀ (fs : List SchemaField) (index : Nat), fs.length ≤ index →
      removeField index fs = fs) ∧
    (∀ (fs : List SchemaField) (f : SchemaField),
      updateField fs.length f fs = fs ++ [f]) := by
  refine ⟨fun fs index h => removeFieldAux_of_le fs index 0 (by omega),
    fun fs f => ?_⟩
  rw [updateField, if_neg (lt_irrefl _)]

/-- C1 (witness): the amended behaviour at concrete inputs: removing index
5 from a one-element tree is a silent no-op, and updating at index 1 of a
one-element tree appends. -/
theorem c1_witness :
    removeField 5 [newField "a"] = [newField "a"] ∧
    updateField 1 (newField "b") [newField "a"] = [newField "a"] ++ [newField "b"] :=
  ⟨c1_no_invalid_path_error.1 [newField "a"] 5 (by decide),
    c1_no_invalid_path_error.2 [newField "a"] (newField "b")⟩

/-- C2: projecting Example 1's two-field tree yields exactly
`{"name": "STRING", "class": "number"}`, and every enabled `number` field,
whatever its name and whatever the accumulated result object, stores the
string `"number"` under its name. -/
theorem c2_example1_and_number_fields :
    generateSchema example1 =
      JsonValue.obj [("name", .str "STRING"), ("class", .str "number")] ∧
    ∀ (r : List (String × JsonValue)) (f : SchemaField),
      f.enabled = true → f.type = .number →
      lookupKey (processField f r) f.name = some (JsonValue.str "number") := by
  refine ⟨rfl, fun r f he ht => ?_⟩
  rw [processField_eq, he, if_pos rfl, fieldValue_number f ht]
  exact lookupKey_objInsert_same r f.name _

/-- C2 (witness): a concrete enabled `number` field named `"k"` projects to
`"number"` under `"k"` against the empty result object. -/
theorem c2_witness :
    lookupKey (processField (SchemaField.mk "9" "k" .number true none) []) "k" =
      some (JsonValue.str "number") :=
  c2_example1_and_number_fields.2 [] (SchemaField.mk "9" "k" .number true none)
    rfl rfl

/-- C3: in any tree `ts ++ f :: us` where `f` is an enabled `string` field
and no later sibling writes the same key, the projection maps `f.name` to
`"STRING"` when the name is non-empty, and to the empty string `""` (at key
`""`) when the name is empty. -/
theorem c3_string_projection :
    ∀ (ts us : List SchemaField) (f : SchemaField),
      f.enabled = true → f.type = .string →
      (∀ g ∈ us, ¬(g.enabled = true ∧ g.name = f.name)) →
      lookupKey (convertFieldsToSchema (ts ++ f :: us)) f.name =
        some (JsonValue.str (if f.name = "" then "" else "STRING")) := by
  intro ts us f he ht hno
  rw [lookupKey_convert_last ts us f he hno, fieldValue_string f ht]

/-- C3 (witness): a singleton tree with an enabled `string` field named
`"a"` projects `"a"` to `"STRING"`; with the empty name it projects `""` to
`""`. -/
theorem c3_witness :
    lookupKey (convertFieldsToSchema [SchemaField.mk "1" "a" .string true none])
      "a" = some (JsonValue.str "STRING") ∧
    lookupKey (convertFieldsToSchema [SchemaField.mk "1" "" .string true none])
      "" = some (JsonValue.str "") := by
  refine ⟨?_, ?_⟩
  · simpa using c3_string_projection [] []
      (SchemaField.mk "1" "a" .string true none) rfl rfl (by simp)
  · simpa using c3_string_projection [] []
      (SchemaField.mk "1" "" .string true none) rfl rfl (by simp)

/-- C4: an enabled `nested` field with a non-empty child array stores the
recursive projection of its children under its name; with an empty child
array it stores the empty object; and Example 2's tree projects to
`{"address": {"line": "number", "": ""}}`. -/
theorem c4_nested_projection :
    (∀ (r : List (String × JsonValue)) (f : SchemaField) (cs : List SchemaField),
      f.enabled = true → f.type = .nested → f.nested = some cs → 0 < cs.length →
      processField f r =
        objInsert r f.name (JsonValue.obj (convertFieldsToSchema cs))) ∧
    (∀ (r : List (String × JsonValue)) (f : SchemaField),
      f.enabled = true → f.type = .nested → f.nested = some [] →
      processField f r = objInsert r f.name (JsonValue.obj [])) ∧
    generateSchema example2 =
      JsonValue.obj
        [("address", JsonValue.obj [("line", .str "number"), ("", .str "")])] := by
  refine ⟨fun r f cs he ht hn hlen => ?_, fun r f he ht hn => ?_, rfl⟩
  · obtain ⟨i, n, ty, e, nested⟩ := f
    simp only [SchemaField.enabled] at he
    simp only [SchemaField.type] at ht
    simp only [SchemaField.nested] at hn
    subst he ht hn
    rw [processField, if_pos rfl]
    simp [hlen, SchemaField.name, convertFieldsToSchema]
  · obtain ⟨i, n, ty, e, nested⟩ := f
    simp only [SchemaField.enabled] at he
    simp only [SchemaField.type] at ht
    simp only [SchemaField.nested] at hn
    subst he ht hn
    rw [processField, if_pos rfl]
    simp [SchemaField.name]

/-- C4 (witness): the two general conjuncts at concrete fields: an enabled
nested field with one `number` child named `"c"`, and one with an empty
child array. -/
theorem c4_witness :
    processField
      (SchemaField.mk "6" "outer" .nested true
        (some [SchemaField.mk "7" "c" .number true none])) [] =
      objInsert [] "outer"
        (JsonValue.obj (convertFieldsToSchema
          [SchemaField.mk "7" "c" .number true none])) ∧
    processField (SchemaField.mk "8" "outer" .nested true (some [])) [] =
      objInsert [] "outer" (JsonValue.obj []) :=
  ⟨c4_nested_projection.1 [] _ [SchemaField.mk "7" "c" .number true none]
      rfl rfl rfl (by decide),
    c4_nested_projection.2.1 [] (SchemaField.mk "8" "outer" .nested true (some []))
      rfl rfl rfl⟩

/-- C5: a disabled field contributes nothing: for every accumulated result
object and any surrounding siblings, processing the sequence with the
disabled field equals processing the sequence without it (so neither its
key nor any key of its subtree is ever written, at any nesting depth since
child sequences are projected by the same function); and disabling
`"class"` in Example 1's tree changes the projection to
`{"name": "STRING"}`. -/
theorem c5_disabled_fields :
    (∀ (r : List (String × JsonValue)) (ts us : List SchemaField)
      (f : SchemaField), f.enabled = false →
      convertAux (ts ++ f :: us) r = convertAux (ts ++ us) r) ∧
    generateSchema example1Disabled = JsonValue.obj [("name", .str "STRING")] := by
  refine ⟨fun r ts us f hf => ?_, rfl⟩
  rw [convertAux_append, convertAux_append]
  show convertAux us (processField f (convertAux ts r)) = _
  rw [processField_eq, hf]
  simp

/-- C5 (witness): the general conjunct at concrete inputs: a disabled
`number` field between two enabled fields drops out of the projection
fold. -/
theorem c5_witness :
    convertAux
      [SchemaField.mk "1" "a" .string true none,
        SchemaField.mk "2" "b" .number false none,
        SchemaField.mk "3" "c" .number true none] [] =
    convertAux
      [SchemaField.mk "1" "a" .string true none,
        SchemaField.mk "3" "c" .number true none] [] :=
  c5_disabled_fields.1 [] [SchemaField.mk "1" "a" .string true none]
    [SchemaField.mk "3" "c" .number true none]
    (SchemaField.mk "2" "b" .number false none) rfl

/-- C6: the type select's handler clears `nested` when switching to a
non-nested type, initializes `nested` to the empty array when switching to
`nested` with no existing children, and therefore switching away and back
yields empty children, never the discarded subtree; consequently every
tree reachable by editor steps from the initial state satisfies the
children-present-iff-nested invariant at every depth. -/
theorem c6_type_children_invariant :
    (∀ (f : SchemaField) (v : FieldType), v ≠ .nested →
      (setFieldType f v).nested = none) ∧
    (∀ f : SchemaField, f.nested = none →
      (setFieldType f .nested).nested = some []) ∧
    (∀ (f : SchemaField) (v : FieldType), v ≠ .nested →
      (setFieldType (setFieldType f v) .nested).nested = some []) ∧
    (∀ t : List SchemaField, Relation.ReflTransGen TreeStep initialFields t →
      fieldsInv t = true) := by
  have haway : ∀ (f : SchemaField) (v : FieldType), v ≠ .nested →
      (setFieldType f v).nested = none := by
    intro f v hv
    rw [setFieldType, if_neg hv]
    rfl
  have hto : ∀ f : SchemaField, f.nested = none →
      (setFieldType f .nested).nested = some [] := by
    intro f hn
    rw [setFieldType, if_pos rfl, hn]
    rfl
  exact ⟨haway, hto, fun f v hv => hto _ (haway f v hv),
    fun t h => reachable_inv h (by rfl)⟩

/-- C6 (witness): switching a concrete nested field (with one child) to
`string` clears its children; switching a fresh field to `nested` sets
empty children; the away-and-back round trip on the same nested field
yields empty children; and the initial tree satisfies the invariant. -/
theorem c6_witness :
    (setFieldType (SchemaField.mk "7" "x" .nested true (some [newField "8"]))
        .string).nested = none ∧
    (setFieldType (newField "9") .nested).nested = some [] ∧
    (setFieldType
        (setFieldType (SchemaField.mk "7" "x" .nested true (some [newField "8"]))
          .string) .nested).nested = some [] ∧
    fieldsInv initialFields = true :=
  ⟨c6_type_children_invariant.1 _ .string (by decide),
    c6_type_children_invariant.2.1 (newField "9") rfl,
    c6_type_children_invariant.2.2.1 _ .string (by decide),
    c6_type_children_invariant.2.2.2 initialFields Relation.ReflTransGen.refl⟩

/-- C7: the projected object never holds two entries with the same key
(its keys are pairwise distinct), and whenever `f` is the last enabled
sibling writing its name, the single entry at that key holds `f`'s
projected value — so on duplicate sibling names the later field wins and
exactly one entry remains. -/
theorem c7_last_write_wins :
    (∀ fields : List SchemaField,
      ((convertFieldsToSchema fields).map Prod.fst).Nodup) ∧
    (∀ (ts us : List SchemaField) (f : SchemaField),
      f.enabled = true →
      (∀ g ∈ us, ¬(g.enabled = true ∧ g.name = f.name)) →
      lookupKey (convertFieldsToSchema (ts ++ f :: us)) f.name =
          some (fieldValue f) ∧
        ((convertFieldsToSchema (ts ++ f :: us)).map Prod.fst).count f.name = 1) := by
  have hnodup : ∀ fields : List SchemaField,
      ((convertFieldsToSchema fields).map Prod.fst).Nodup :=
    fun fields => keysNodup_convertAux fields [] (by simp)
  refine ⟨hnodup, fun ts us f he hno => ?_⟩
  have hlook := lookupKey_convert_last ts us f he hno
  exact ⟨hlook, List.count_eq_one_of_mem (hnodup _) (mem_keys_of_lookupKey hlook)⟩

/-- C7 (witness): two enabled `string` siblings both named `"dup"` (the
first with id "1", the second with id "2"): the projection has exactly one
entry for `"dup"`, holding the later field's value. -/
theorem c7_witness :
    lookupKey
        (convertFieldsToSchema
          [SchemaField.mk "1" "dup" .string true none,
            SchemaField.mk "2" "dup" .string true none]) "dup" =
      some (fieldValue (SchemaField.mk "2" "dup" .string true none)) ∧
    ((convertFieldsToSchema
        [SchemaField.mk "1" "dup" .string true none,
          SchemaField.mk "2" "dup" .string true none]).map Prod.fst).count "dup" = 1 :=
  c7_last_write_wins.2 [SchemaField.mk "1" "dup" .string true none] []
    (SchemaField.mk "2" "dup" .string true none) rfl (by simp)

/-- C8 (counterexample): the id generator is `Math.random()`-based and the
code never checks a drawn token against the ids already in the tree;
modelling the draws as explicit oracle inputs, two `addField` calls whose
draws both produce `"abc"` leave the tree with two equal ids, so the ids
are not pairwise distinct. -/
theorem c8_counterexample :
    ¬ (fieldsIds (addField "abc" (addField "abc" initialFields))).Nodup := by
  decide

/-- C8 (amended): appending a fresh field — at the root (`addField`) or to
a row's children (`addNestedField`) — preserves pairwise-distinct ids
provided the drawn id token differs from every id already in the tree; the
code itself contains no such collision check. -/
theorem c8_fresh_ids_nodup :
    (∀ (fs : List SchemaField) (id : String),
      (fieldsIds fs).Nodup → id ∉ fieldsIds fs →
      (fieldsIds (addField id fs)).Nodup) ∧
    (∀ (f : SchemaField) (id : String),
      (fieldIds f).Nodup → id ∉ fieldIds f →
      (fieldIds (addNestedField id f)).Nodup) := by
  refine ⟨fun fs id h hid => ?_, fun f id h hid => ?_⟩
  · have heq : fieldsIds (addField id fs) = fieldsIds fs ++ [id] := by
      rw [addField, fieldsIds_append]
      rfl
    rw [heq]
    exact List.Nodup.append h (List.nodup_singleton id)
      (fun a ha hb => by simp at hb; subst hb; exact hid ha)
  · obtain ⟨i, n, ty, e, nested⟩ := f
    cases nested with
    | none =>
      have heq : fieldIds (addNestedField id (.mk i n ty e none)) = [i, id] := rfl
      rw [heq]
      rw [show fieldIds (SchemaField.mk i n ty e none) = [i] from rfl] at hid
      simp only [List.mem_singleton] at hid
      simp only [List.nodup_cons, List.mem_singleton, List.nodup_singleton,
        and_true]
      exact ⟨fun hh => hid hh.symm, by simp⟩
    | some cs =>
      have heq : fieldIds (addNestedField id (.mk i n ty e (some cs))) =
          i :: (fieldsIds cs ++ [id]) := by
        show fieldIds (SchemaField.mk i n ty e (some (cs ++ [newField id]))) = _
        rw [fieldIds, fieldsIds_append]
        rfl
      rw [heq]
      rw [show fieldIds (SchemaField.mk i n ty e (some cs)) = i :: fieldsIds cs
        from rfl] at h hid
      exact nodup_cons_append_singleton h hid

/-- C8 (witness): drawing the fresh token `"abc"` over the initial tree
(ids "1" to "5") keeps the root-appended and child-appended trees
duplicate-free. -/
theorem c8_witness :
    (fieldsIds (addField "abc" initialFields)).Nodup ∧
    (fieldIds (addNestedField "abc"
      (SchemaField.mk "3" "address" .nested true (some [newField "4"])))).Nodup :=
  ⟨c8_fresh_ids_nodup.1 initialFields "abc" (by decide) (by decide),
    c8_fresh_ids_nodup.2 (SchemaField.mk "3" "address" .nested true
      (some [newField "4"])) "abc" (by decide) (by decide)⟩

/-- C9: the projector is a pure function of the tree value: deep-equal
input trees yield deep-equal projections, and projection always succeeds,
yielding an object, on every tree. -/
theorem c9_projector_deterministic :
    (∀ t1 t2 : List SchemaField, t1 = t2 →
      generateSchema t1 = generateSchema t2) ∧
    (∀ t : List SchemaField, ∃ m, generateSchema t = JsonValue.obj m) :=
  ⟨fun _ _ h => congrArg generateSchema h,
    fun t => ⟨convertFieldsToSchema t, rfl⟩⟩

/-- C9 (witness): projecting the initial tree twice yields equal results. -/
theorem c9_witness :
    generateSchema initialFields = generateSchema initialFields :=
  c9_projector_deterministic.1 initialFields initialFields rfl

/-- C10: the projector is total even on ill-formed trees: an enabled field
typed `nested` whose `nested` array is absent stores the empty object
(exactly as an empty array would), and a `nested` array attached to a
`string` or `number` field is ignored by that field's projection. -/
theorem c10_projector_total_illformed :
    (∀ (r : List (String × JsonValue)) (f : SchemaField),
      f.enabled = true → f.type = .nested → f.nested = none →
      processField f r = objInsert r f.name (JsonValue.obj [])) ∧
    (∀ (r : List (String × JsonValue)) (i n : String) (ty : FieldType)
      (e : Bool) (cs : List SchemaField), ty ≠ .nested →
      processField (.mk i n ty e (some cs)) r =
        processField (.mk i n ty e none) r) := by
  refine ⟨fun r f he ht hn => ?_, fun r i n ty e cs hty => ?_⟩
  · obtain ⟨i, n, ty, e, nested⟩ := f
    simp only [SchemaField.enabled] at he
    simp only [SchemaField.type] at ht
    simp only [SchemaField.nested] at hn
    subst he ht hn
    rfl
  · cases ty with
    | string => rfl
    | number => rfl
    | nested => exact absurd rfl hty

/-- C10 (witness): a `nested`-typed field with absent children projects to
the empty object, and a `string` field carrying a stray child array
projects exactly as the same field without it. -/
theorem c10_witness :
    processField (SchemaField.mk "9" "bad" .nested true none) [] =
      objInsert [] "bad" (JsonValue.obj []) ∧
    processField (SchemaField.mk "9" "s" .string true (some [newField "10"])) [] =
      processField (SchemaField.mk "9" "s" .string true none) [] :=
  ⟨c10_projector_total_illformed.1 [] (SchemaField.mk "9" "bad" .nested true none)
      rfl rfl rfl,
    c10_projector_total_illformed.2 [] "9" "s" .string true [newField "10"]
      (by decide)⟩

end SchemaBuilder
